import Mathlib

/-!
# OpsChat-lite: chunking and retrieval engine, shallow embedding

A shallow embedding of the chunking-and-retrieval core of the OpsChat-lite
backend (`backend/chunking.py`, `backend/database.py`, `backend/embeddings.py`,
`backend/main.py`), together with theorems settling the specification claims
about it.

Modelling conventions:
* Python `str` values are `List Char`; Python slice and `rfind` index
  normalisation (negative indices wrap, bounds clamp) is modelled explicitly.
* Python `int` is `ℤ`.
* Python floats are idealised as `ℝ` (the float rounding of `round(x, 4)` is
  modelled by exact rounding on `ℝ`; Python rounds half-to-even while `round`
  here rounds half-up, which only differs at exact midpoints and does not
  affect any ordering property proved below).
* The `while` loop of `chunk_text` is modelled with explicit fuel: `none`
  means the fuel ran out, and a run that diverges in Python yields `none`
  for every fuel.
* The SQLite store is modelled as an explicit record of rows; `AUTOINCREMENT`
  ids are modelled by a `nextChunkId` counter.  External calls (the OpenAI
  embedder) are modelled as an explicit function argument, and the number of
  such calls is counted.
-/

/-! ## Python string primitives -/

/-- The whitespace characters recognised by Python's `str.split` /
`str.strip` for ASCII text. -/
def isPySpace (c : Char) : Bool :=
  c == ' ' || c == '\t' || c == '\n' || c == '\r' || c == '\x0b' || c == '\x0c'

/-- Python `s.strip()`: drop leading and trailing whitespace. -/
def pyStrip (l : List Char) : List Char :=
  ((l.dropWhile isPySpace).reverse.dropWhile isPySpace).reverse

/-- Python `s.split()` (no separator argument): the maximal runs of
non-whitespace characters. -/
def pySplit (l : List Char) : List (List Char) :=
  (List.splitOnP isPySpace l).filter (fun w => !w.isEmpty)

/-- `' '.join(text.split())`: the whitespace-normalised text
(line 121 of `chunking.py`). -/
def cleanText (l : List Char) : List Char :=
  List.intercalate [' '] (pySplit l)

/-- Normalise one Python slice index: a negative index counts from the end,
and the result is clamped to `[0, L]`. -/
def pyIdx (L : ℕ) (i : ℤ) : ℕ :=
  if i < 0 then ((L : ℤ) + i).toNat else min i.toNat L

/-- Python `t[i:j]` for `int` indices `i`, `j`. -/
def pySlice (t : List Char) (i j : ℤ) : List Char :=
  (t.take (pyIdx t.length j)).drop (pyIdx t.length i)

/-- Python `t.rfind(' ', i, j)`: the largest index of a space character in
`t[i:j]`, or `-1` when there is none. -/
def pyRfindSpace (t : List Char) (i j : ℤ) : ℤ :=
  let s := pyIdx t.length i
  let e := pyIdx t.length j
  match ((List.range e).filter (fun k => decide (s ≤ k) && (t.get? k == some ' '))).getLast? with
  | some k => (k : ℤ)
  | none => -1

/-! ## The chunking loop (`chunk_text`, `chunking.py` lines 99-152) -/

/-- One iteration's `end` value: `end = start + chunk_size`, then, when that
falls strictly before the end of the text, moved back to the last space in
`[start, end)` if that space lies strictly after `start`
(lines 129-137 of `chunking.py`). -/
def chunkEnd (t : List Char) (chunk_size start : ℤ) : ℤ :=
  let e0 := start + chunk_size
  if e0 < (t.length : ℤ) then
    let last_space := pyRfindSpace t start e0
    if start < last_space then last_space else e0
  else e0

/-- One iteration's next `start` value: `start = end - overlap`, reset to the
old `start` whenever that does not move strictly forward
(lines 144-150 of `chunking.py`).  Note the reset leaves `start` unchanged,
so a reset iteration repeats the same state. -/
def chunkNext (t : List Char) (chunk_size overlap start : ℤ) : ℤ :=
  let s1 := chunkEnd t chunk_size start - overlap
  if s1 ≤ start then start else s1

/-- The `while start < text_length` loop of `chunk_text`, with explicit fuel;
`none` means the fuel was exhausted (in particular a diverging Python run
yields `none` for every fuel). -/
def chunkLoop (t : List Char) (chunk_size overlap : ℤ) :
    ℕ → ℤ → List (List Char) → Option (List (List Char))
  | 0, _, _ => none
  | fuel + 1, start, chunks =>
    if start < (t.length : ℤ) then
      let chunk := pyStrip (pySlice t start (chunkEnd t chunk_size start))
      let chunks1 := if chunk.isEmpty then chunks else chunks ++ [chunk]
      chunkLoop t chunk_size overlap fuel (chunkNext t chunk_size overlap start) chunks1
    else
      some chunks

/-- The same loop, recording the `(start, end)` span of every iteration
instead of the trimmed chunks.  Used to relate the emitted chunks to the
regions of the cleaned text they were cut from. -/
def chunkSpans (t : List Char) (chunk_size overlap : ℤ) :
    ℕ → ℤ → Option (List (ℤ × ℤ))
  | 0, _ => none
  | fuel + 1, start =>
    if start < (t.length : ℤ) then
      (chunkSpans t chunk_size overlap fuel (chunkNext t chunk_size overlap start)).map
        (fun rest => (start, chunkEnd t chunk_size start) :: rest)
    else
      some []

/-- The trimmed, non-empty chunks cut from a list of spans of `t`. -/
def spanChunks (t : List Char) (spans : List (ℤ × ℤ)) : List (List Char) :=
  (spans.map (fun p => pyStrip (pySlice t p.1 p.2))).filter (fun c => !c.isEmpty)

/-- `chunk_text(text, chunk_size, overlap)` (`chunking.py` lines 99-152),
with explicit fuel for the internal loop: empty or whitespace-only input
returns `[]`; otherwise the text is whitespace-normalised and the loop runs
from `start = 0`. -/
def chunk_text (text : List Char) (chunk_size overlap : ℤ) (fuel : ℕ) :
    Option (List (List Char)) :=
  if text.isEmpty || (pyStrip text).isEmpty then some []
  else chunkLoop (cleanText text) chunk_size overlap fuel 0 []

/-! ## C1 / C3: divergence of the chunking loop -/

theorem chunkLoop_ab_step (fuel : ℕ) (chunks : List (List Char)) :
    chunkLoop "ab".toList 1 1 (fuel + 1) 0 chunks =
      chunkLoop "ab".toList 1 1 fuel 0 (chunks ++ [['a']]) := rfl

theorem chunkLoop_ab_none : ∀ (fuel : ℕ) (chunks : List (List Char)),
    chunkLoop "ab".toList 1 1 fuel 0 chunks = none := by
  intro fuel
  induction fuel with
  | zero => intro chunks; rfl
  | succ n ih =>
    intro chunks
    rw [chunkLoop_ab_step]
    exact ih (chunks ++ [['a']])

/-- **C1.** The claimed termination bound fails: on the two-character text
`"ab"` with `chunk_size = 1` and `overlap = 1` the loop of `chunk_text`
never returns, for any amount of fuel (`start` is reset to its old value on
every iteration, so the same state repeats for ever while a duplicate chunk
`"a"` is appended each time).  The spec's guarantee of termination within
`ceil(L / max(1, chunk_size - overlap))` iterations — here 2 — is violated. -/
theorem chunk_text_overlap_ge_size_diverges :
    ∀ fuel : ℕ, chunk_text "ab".toList 1 1 fuel = none := by
  intro fuel
  show chunkLoop (cleanText "ab".toList) 1 1 fuel 0 [] = none
  exact chunkLoop_ab_none fuel []

theorem chunkLoop_hello_step (fuel : ℕ) (chunks : List (List Char)) :
    chunkLoop "hello".toList 0 0 (fuel + 1) 0 chunks =
      chunkLoop "hello".toList 0 0 fuel 0 chunks := rfl

theorem chunkLoop_hello_none : ∀ (fuel : ℕ) (chunks : List (List Char)),
    chunkLoop "hello".toList 0 0 fuel 0 chunks = none := by
  intro fuel
  induction fuel with
  | zero => intro chunks; rfl
  | succ n ih =>
    intro chunks
    rw [chunkLoop_hello_step]
    exact ih chunks

/-- **C3.** `chunk_text` performs no validation of `chunk_size`: with
`chunk_size = 0` (and `overlap = 0`) on the text `"hello"` it signals no
error and never returns — the loop repeats the state `start = 0` for ever,
for any amount of fuel — instead of rejecting the configuration before any
work begins as the spec requires. -/
theorem chunk_text_nonpositive_size_diverges :
    ∀ fuel : ℕ, chunk_text "hello".toList 0 0 fuel = none := by
  intro fuel
  show chunkLoop (cleanText "hello".toList) 0 0 fuel 0 [] = none
  exact chunkLoop_hello_none fuel []

/-! ## C2: coverage of the cleaned text by chunk spans -/

/-- The length of the longest suffix of `a` that is also a prefix of `b`:
the "overlapping prefix `b` shares with its predecessor `a`" of the spec. -/
def sharedOverlapLen (a b : List Char) : ℕ :=
  (((List.range (min a.length b.length + 1)).filter
      (fun k => a.drop (a.length - k) == b.take k)).getLast?).getD 0

/-- Reconstruction as the claim states it, reading "overlapping prefix" as
the longest textual overlap: concatenate the chunks, removing from each
chunk the longest prefix it shares with the end of its predecessor. -/
def mergeSharedAux (prev : List Char) : List (List Char) → List Char
  | [] => []
  | c :: rest => c.drop (sharedOverlapLen prev c) ++ mergeSharedAux c rest

/-- Reconstruction of a text from chunks by removing each chunk's longest
overlap with its predecessor (claim C2, textual-overlap reading). -/
def mergeShared : List (List Char) → List Char
  | [] => []
  | c :: rest => c ++ mergeSharedAux c rest

/-- Reconstruction of a text from chunks by removing the first `ov`
characters of every chunk after the first (claim C2, configured-overlap
reading; also the reconstruction used for the amended claim on spans). -/
def mergeDropOverlap (ov : ℕ) : List (List Char) → List Char
  | [] => []
  | c :: rest => c ++ (rest.map (List.drop ov)).flatten

/-- **C2, counterexample.**  On `"ab cd"` with `chunk_size = 3`,
`overlap = 0`, `chunk_text` returns the trimmed chunks `["ab", "cd"]`; the
space that separated them belongs to neither chunk, so no overlap-removing
concatenation of the returned chunks reconstructs the cleaned text
`"ab cd"` — under either reading of "overlapping prefix". -/
theorem chunk_text_coverage_counterexample :
    chunk_text "ab cd".toList 3 0 10 = some ["ab".toList, "cd".toList] ∧
      mergeShared ["ab".toList, "cd".toList] ≠ cleanText "ab cd".toList ∧
      mergeDropOverlap 0 ["ab".toList, "cd".toList] ≠ cleanText "ab cd".toList := by
  refine ⟨by decide, by decide, by decide⟩

theorem chunkSpans_none_of_stuck (t : List Char) (cs ov : ℤ) (start : ℤ)
    (h1 : start < (t.length : ℤ)) (h2 : chunkNext t cs ov start = start) :
    ∀ fuel, chunkSpans t cs ov fuel start = none := by
  intro fuel
  induction fuel with
  | zero => rfl
  | succ n ih => rw [chunkSpans, if_pos h1, h2, ih]; rfl

theorem pyIdx_nonneg (L : ℕ) (i : ℤ) (h : 0 ≤ i) : pyIdx L i = min i.toNat L := by
  rw [pyIdx, if_neg (by omega)]

theorem take_min_drop_append {α : Type} (t : List α) (x m : ℕ) (hxm : x ≤ m) :
    (t.take (min m t.length)).drop x ++ t.drop m = t.drop x := by
  rcases le_or_lt m t.length with hm | hm
  · rw [min_eq_left hm]
    conv_rhs => rw [← List.take_append_drop m t]
    rw [List.drop_append_of_le_length]
    rw [List.length_take]; omega
  · rw [min_eq_right (le_of_lt hm), List.take_length,
      List.drop_eq_nil_of_le (le_of_lt hm), List.append_nil]

theorem chunkSpans_drop_recon (t : List Char) (cs ov : ℤ) (hov : 0 ≤ ov) :
    ∀ (fuel : ℕ) (start : ℤ) (spans : List (ℤ × ℤ)), 0 ≤ start →
      chunkSpans t cs ov fuel start = some spans →
      (spans.map (fun p => (pySlice t p.1 p.2).drop ov.toNat)).flatten
        = t.drop (start.toNat + ov.toNat) := by
  intro fuel
  induction fuel with
  | zero => intro start spans _ h; exact absurd h (by simp [chunkSpans])
  | succ n ih =>
    intro start spans hs h
    by_cases hlt : start < (t.length : ℤ)
    · by_cases hstuck : chunkEnd t cs start - ov ≤ start
      · have hnx : chunkNext t cs ov start = start := by
          rw [chunkNext, if_pos hstuck]
        rw [chunkSpans_none_of_stuck t cs ov start hlt hnx (n + 1)] at h
        exact absurd h (by simp)
      · push_neg at hstuck
        have hnx : chunkNext t cs ov start = chunkEnd t cs start - ov := by
          rw [chunkNext, if_neg (by omega)]
        rw [chunkSpans, if_pos hlt, hnx] at h
        cases hrec : chunkSpans t cs ov n (chunkEnd t cs start - ov) with
        | none => rw [hrec] at h; exact absurd h (by simp)
        | some rest =>
          rw [hrec] at h
          have hsp : spans = (start, chunkEnd t cs start) :: rest := by
            simpa using h.symm
          subst hsp
          have he0 : (0 : ℤ) ≤ chunkEnd t cs start := by omega
          have htail := ih (chunkEnd t cs start - ov) rest (by omega) hrec
          simp only [List.map_cons, List.flatten_cons, htail]
          rw [pySlice, pyIdx_nonneg _ _ hs, pyIdx_nonneg _ _ he0, List.drop_drop]
          have ha : min start.toNat t.length = start.toNat := by omega
          rw [ha]
          have harith : (chunkEnd t cs start - ov).toNat + ov.toNat
              = (chunkEnd t cs start).toNat := by omega
          rw [harith]
          exact take_min_drop_append t (start.toNat + ov.toNat)
            (chunkEnd t cs start).toNat (by omega)
    · rw [chunkSpans, if_neg hlt] at h
      have hsp : spans = [] := by simpa using h.symm
      subst hsp
      have hL : t.length ≤ start.toNat + ov.toNat := by omega
      simp [List.drop_eq_nil_of_le hL]

theorem chunkLoop_eq_chunkSpans (t : List Char) (cs ov : ℤ) :
    ∀ (fuel : ℕ) (start : ℤ) (chunks : List (List Char)),
      chunkLoop t cs ov fuel start chunks =
        (chunkSpans t cs ov fuel start).map (fun sp => chunks ++ spanChunks t sp) := by
  intro fuel
  induction fuel with
  | zero => intro start chunks; rfl
  | succ n ih =>
    intro start chunks
    by_cases hlt : start < (t.length : ℤ)
    · rw [chunkLoop, chunkSpans]
      simp only [if_pos hlt, ih]
      cases chunkSpans t cs ov n (chunkNext t cs ov start) with
      | none => rfl
      | some rest =>
        simp only [Option.map_some']
        by_cases hc : (pyStrip (pySlice t start (chunkEnd t cs start))).isEmpty
        · simp [spanChunks, List.filter_cons, hc]
        · simp [spanChunks, List.filter_cons, hc]
    · rw [chunkLoop, chunkSpans]
      simp [if_neg hlt, spanChunks]

/-- **C2, amended.**  Coverage holds for the untrimmed spans, not for the
returned (trimmed) chunks: whenever the loop of `chunk_text` returns
(`overlap ≥ 0`, non-blank input), (a) the returned chunks are exactly the
per-iteration slices `text[start:end]` trimmed of boundary whitespace with
empties dropped, and (b) concatenating those untrimmed slices, minus the
first `overlap` characters of every slice after the first, reconstructs the
whitespace-normalised text exactly. -/
theorem chunk_text_coverage_spans (text : List Char) (cs ov : ℤ) (fuel : ℕ)
    (spans : List (ℤ × ℤ)) (hov : 0 ≤ ov)
    (hg : (text.isEmpty || (pyStrip text).isEmpty) = false)
    (hs : chunkSpans (cleanText text) cs ov fuel 0 = some spans) :
    chunk_text text cs ov fuel = some (spanChunks (cleanText text) spans) ∧
      mergeDropOverlap ov.toNat
          (spans.map (fun p => pySlice (cleanText text) p.1 p.2))
        = cleanText text := by
  constructor
  · rw [chunk_text, hg]
    simp only [Bool.false_eq_true, if_false]
    rw [chunkLoop_eq_chunkSpans, hs]
    simp
  · cases spans with
    | nil =>
      have hL : cleanText text = [] := by
        cases fuel with
        | zero => exact absurd hs (by simp [chunkSpans])
        | succ n =>
          by_cases h0 : (0 : ℤ) < ((cleanText text).length : ℤ)
          · rw [chunkSpans, if_pos h0] at hs
            cases hrec : chunkSpans (cleanText text) cs ov n
                (chunkNext (cleanText text) cs ov 0) with
            | none => rw [hrec] at hs; exact absurd hs (by simp)
            | some rest => rw [hrec] at hs; exact absurd hs (by simp)
          · have : (cleanText text).length = 0 := by omega
            exact List.length_eq_zero.mp this
      rw [hL]; rfl
    | cons p rest =>
      cases fuel with
      | zero => exact absurd hs (by simp [chunkSpans])
      | succ n =>
        by_cases h0 : (0 : ℤ) < ((cleanText text).length : ℤ)
        · rw [chunkSpans, if_pos h0] at hs
          cases hrec : chunkSpans (cleanText text) cs ov n
              (chunkNext (cleanText text) cs ov 0) with
          | none => rw [hrec] at hs; exact absurd hs (by simp)
          | some rest' =>
            rw [hrec] at hs
            have hps : p = (0, chunkEnd (cleanText text) cs 0) ∧ rest' = rest := by
              have := hs; simp at this; exact ⟨this.1.symm, this.2⟩
            obtain ⟨hp, hr⟩ := hps
            subst hp
            rw [hr] at hrec
            by_cases hstuck : chunkEnd (cleanText text) cs 0 - ov ≤ 0
            · have hnx : chunkNext (cleanText text) cs ov 0 = 0 := by
                rw [chunkNext, if_pos hstuck]
              rw [hnx] at hrec
              rw [chunkSpans_none_of_stuck (cleanText text) cs ov 0 h0 hnx n] at hrec
              exact absurd hrec (by simp)
            · push_neg at hstuck
              have hnx : chunkNext (cleanText text) cs ov 0
                  = chunkEnd (cleanText text) cs 0 - ov := by
                rw [chunkNext, if_neg (by omega)]
              rw [hnx] at hrec
              have htail := chunkSpans_drop_recon (cleanText text) cs ov hov n
                (chunkEnd (cleanText text) cs 0 - ov) rest (by omega) hrec
              have harith : (chunkEnd (cleanText text) cs 0 - ov).toNat + ov.toNat
                  = (chunkEnd (cleanText text) cs 0).toNat := by omega
              rw [harith] at htail
              simp only [mergeDropOverlap, List.map_cons, List.map_map]
              have hmaps : (rest.map
                    ((List.drop ov.toNat) ∘ (fun p => pySlice (cleanText text) p.1 p.2)))
                  = rest.map (fun p => (pySlice (cleanText text) p.1 p.2).drop ov.toNat) := by
                simp [Function.comp]
              rw [hmaps, htail]
              rw [pySlice, pyIdx_nonneg _ _ (by omega : (0:ℤ) ≤ 0),
                pyIdx_nonneg _ _ (by omega : (0:ℤ) ≤ chunkEnd (cleanText text) cs 0)]
              have h00 : min (0 : ℤ).toNat (cleanText text).length = 0 := by omega
              rw [h00, List.drop_zero]
              have := take_min_drop_append (cleanText text) 0
                (chunkEnd (cleanText text) cs 0).toNat (by omega)
              rw [List.drop_zero] at this
              exact this
        · rw [chunkSpans, if_neg h0] at hs
          exact absurd hs (by simp)

/-- Witness for the amended C2 at `"ab cd"`, `chunk_size = 3`,
`overlap = 0`: the spans are `[0,2)` and `[2,5)`, the returned chunks
`["ab", "cd"]`, and the untrimmed slices `"ab"` and `" cd"` concatenate to
`"ab cd"`. -/
theorem chunk_text_coverage_spans_witness :
    chunk_text "ab cd".toList 3 0 10
        = some (spanChunks (cleanText "ab cd".toList) [(0, 2), (2, 5)]) ∧
      mergeDropOverlap (0 : ℤ).toNat
          ([((0 : ℤ), (2 : ℤ)), (2, 5)].map
            (fun p => pySlice (cleanText "ab cd".toList) p.1 p.2))
        = cleanText "ab cd".toList :=
  chunk_text_coverage_spans "ab cd".toList 3 0 10 [(0, 2), (2, 5)]
    (by decide) (by decide) (by decide)

/-! ## `embeddings.py`: cosine similarity

Python floats are idealised as `ℝ`.  `np.dot` on two equal-length vectors is
the sum of pairwise products (NumPy raises on mismatched 1-D shapes, and the
claims about `compute_similarity` are stated for equal-length vectors);
`np.linalg.norm` is the square root of the sum of squares. -/

/-- `np.dot(vec1, vec2)` for equal-length 1-D vectors. -/
def dotList (v w : List ℝ) : ℝ := (List.zipWith (· * ·) v w).sum

/-- The sum of squares of a vector's entries. -/
def sumSq (v : List ℝ) : ℝ := (v.map (fun x => x * x)).sum

/-- `np.linalg.norm(vec)`. -/
noncomputable def magnitude (v : List ℝ) : ℝ := Real.sqrt (sumSq v)

/-- `compute_similarity(embedding1, embedding2)` (`embeddings.py` lines
49-89): cosine similarity, with the explicit guard returning `0.0` when
either magnitude is zero, before any division happens. -/
noncomputable def compute_similarity (embedding1 embedding2 : List ℝ) : ℝ :=
  if magnitude embedding1 = 0 ∨ magnitude embedding2 = 0 then 0
  else dotList embedding1 embedding2 / (magnitude embedding1 * magnitude embedding2)

/-- **C5.** For equal-length vectors, whenever either vector has zero
magnitude, `compute_similarity` returns exactly `0.0`: the zero-magnitude
guard fires before the division, so no division by zero (hence no error and
no NaN) can occur on this path. -/
theorem compute_similarity_zero_vector (e1 e2 : List ℝ)
    (_hlen : e1.length = e2.length)
    (hz : magnitude e1 = 0 ∨ magnitude e2 = 0) :
    compute_similarity e1 e2 = 0 := by
  rw [compute_similarity, if_pos hz]

/-- Witness for C5: the all-zero 3-dimensional vector against `[1, 2, 2]`. -/
theorem compute_similarity_zero_vector_witness :
    compute_similarity [0, 0, 0] [1, 2, 2] = 0 :=
  compute_similarity_zero_vector [0, 0, 0] [1, 2, 2] (by simp)
    (Or.inl (by simp [magnitude, sumSq, Real.sqrt_zero]))

/-! ## `database.py`: the chunk store

The SQLite store is modelled as a record of rows.  `AUTOINCREMENT` chunk ids
are modelled by the `nextChunkId` counter; a document's `upload_date` column
is omitted (wall-clock time, never consulted by the modelled operations).
The embedding column holds `none` for SQL `NULL`; a stored embedding payload
is opaque to the store, so the model is parametric in its type `E`
(instantiated with `List ℝ` for search). -/

/-- A row of the `documents` table. -/
structure Document where
  id : ℤ
  filename : List Char
  file_path : List Char
deriving DecidableEq

/-- A row of the `chunks` table. -/
structure ChunkRec (E : Type) where
  id : ℤ
  document_id : ℤ
  chunk_text : List Char
  chunk_index : ℤ
  embedding : Option E
deriving DecidableEq

/-- The whole store. -/
structure DB (E : Type) where
  documents : List Document
  chunks : List (ChunkRec E)
  nextChunkId : ℤ
deriving DecidableEq

/-- `get_document_by_id` (`database.py` lines 70-92):
`SELECT ... FROM documents WHERE id = ?` with `fetchone`. -/
def get_document_by_id {E : Type} (document_id : ℤ) (db : DB E) : Option Document :=
  db.documents.find? (fun d => d.id == document_id)

/-- `insert_chunk` (`database.py` lines 96-107): append a row with a fresh
auto-increment id and no embedding. -/
def insert_chunk {E : Type} (document_id : ℤ) (chunk_text : List Char)
    (chunk_index : ℤ) (db : DB E) : DB E :=
  ⟨db.documents,
    db.chunks ++ [⟨db.nextChunkId, document_id, chunk_text, chunk_index, none⟩],
    db.nextChunkId + 1⟩

/-- `delete_existing_chunks` (`database.py` lines 111-120):
`DELETE FROM chunks WHERE document_id = ?`. -/
def delete_existing_chunks {E : Type} (document_id : ℤ) (db : DB E) : DB E :=
  ⟨db.documents, db.chunks.filter (fun c => c.document_id != document_id),
    db.nextChunkId⟩

/-- `count_chunks_for_document` (`database.py` lines 185-200):
`SELECT COUNT(*) FROM chunks WHERE document_id = ?`. -/
def count_chunks_for_document {E : Type} (document_id : ℤ) (db : DB E) : ℕ :=
  (db.chunks.filter (fun c => c.document_id == document_id)).length

/-- `ORDER BY chunk_index` on chunk rows. -/
def byChunkIndex {E : Type} (a b : ChunkRec E) : Prop :=
  a.chunk_index ≤ b.chunk_index

instance {E : Type} (a b : ChunkRec E) : Decidable (byChunkIndex a b) :=
  Int.decLe a.chunk_index b.chunk_index

/-- `get_chunks_by_document` (`database.py` lines 277-311):
`SELECT ... FROM chunks WHERE document_id = ? ORDER BY chunk_index`. -/
def get_chunks_by_document {E : Type} (document_id : ℤ) (db : DB E) :
    List (ChunkRec E) :=
  List.insertionSort byChunkIndex
    (db.chunks.filter (fun c => c.document_id == document_id))

/-- `update_chunk_embedding` (`database.py` lines 204-225):
`UPDATE chunks SET embedding = ? WHERE id = ?`. -/
def update_chunk_embedding {E : Type} (chunk_id : ℤ) (embedding : E)
    (db : DB E) : DB E :=
  ⟨db.documents,
    db.chunks.map (fun c =>
      if c.id == chunk_id then
        ⟨c.id, c.document_id, c.chunk_text, c.chunk_index, some embedding⟩
      else c),
    db.nextChunkId⟩

/-- A row of the `chunks JOIN documents` query of
`get_all_chunks_with_embeddings`: the chunk columns plus the owning
document's filename, with the embedding guaranteed present. -/
structure ChunkRow (E : Type) where
  id : ℤ
  document_id : ℤ
  chunk_text : List Char
  chunk_index : ℤ
  embedding : E
  filename : List Char
deriving DecidableEq

/-- The embedded chunks joined with their documents
(`WHERE c.embedding IS NOT NULL` plus
`JOIN documents d ON c.document_id = d.id`; a chunk whose `document_id`
matches no document is dropped by the inner join, and document ids are
primary keys so at most one document matches). -/
def embeddedRows {E : Type} (db : DB E) : List (ChunkRow E) :=
  db.chunks.filterMap (fun c =>
    match c.embedding with
    | none => none
    | some e =>
      (db.documents.find? (fun d => d.id == c.document_id)).map
        (fun d => ⟨c.id, c.document_id, c.chunk_text, c.chunk_index, e, d.filename⟩))

/-- `ORDER BY c.chunk_index` on joined rows. -/
def rowByIndex {E : Type} (a b : ChunkRow E) : Prop :=
  a.chunk_index ≤ b.chunk_index

instance {E : Type} (a b : ChunkRow E) : Decidable (rowByIndex a b) :=
  Int.decLe a.chunk_index b.chunk_index

/-- `ORDER BY c.document_id, c.chunk_index` on joined rows. -/
def rowByDocIndex {E : Type} (a b : ChunkRow E) : Prop :=
  a.document_id < b.document_id ∨
    (a.document_id = b.document_id ∧ a.chunk_index ≤ b.chunk_index)

instance {E : Type} (a b : ChunkRow E) : Decidable (rowByDocIndex a b) :=
  inferInstanceAs (Decidable (a.document_id < b.document_id ∨
    (a.document_id = b.document_id ∧ a.chunk_index ≤ b.chunk_index)))

/-- Python truthiness of the `document_id: int = None` parameter as used by
`if document_id:` — false for `None` and for `0`. -/
def pyTruthyOptInt : Option ℤ → Bool
  | none => false
  | some x => x != 0

/-- `get_all_chunks_with_embeddings(document_id=None)` (`database.py` lines
228-274).  The branch is selected by `if document_id:`, i.e. by Python
truthiness of the argument, and the two branches use different `ORDER BY`
clauses. -/
def get_all_chunks_with_embeddings {E : Type} (db : DB E)
    (document_id : Option ℤ) : List (ChunkRow E) :=
  if pyTruthyOptInt document_id then
    List.insertionSort rowByIndex
      ((embeddedRows db).filter (fun r => r.document_id == document_id.getD 0))
  else
    List.insertionSort rowByDocIndex (embeddedRows db)

/-- **C9.** Passing `document_id = 0` to `get_all_chunks_with_embeddings`
is indistinguishable from passing no filter at all: `if document_id:` is
false for `0`, so the unfiltered query (all documents, ordered by document
then index) runs, rather than the empty result that document `0` owns. -/
theorem get_all_chunks_docid_zero_ignored {E : Type} (db : DB E) :
    get_all_chunks_with_embeddings db (some 0)
      = get_all_chunks_with_embeddings db none := rfl

/-! ## `main.py`: HTTP error outcomes -/

/-- The `HTTPException` outcomes raised by the modelled endpoints. -/
inductive HErr
  | docNotFound
  | noChunksFound
  | insertFailed
  | badK
deriving DecidableEq

/-- The HTTP status code each outcome carries. -/
def HErr.status : HErr → ℕ
  | docNotFound => 404
  | noChunksFound => 404
  | insertFailed => 500
  | badK => 400

/-! ## `generate_embeddings_for_document` (`main.py` lines 264-337)

The external OpenAI call `embeddings.get_embedding` is modelled by the
function argument `embedder`; the fourth component of the loop state counts
how many times it is invoked (one per generated embedding). -/

/-- The `for chunk in chunks:` loop of `generate_embeddings_for_document`:
skip chunks that already carry an embedding, otherwise call the embedder
once and store the result.  Returns the updated store and the counters
`(generated, skipped, external calls)`. -/
def embedLoop {E : Type} (embedder : List Char → E) :
    List (ChunkRec E) → DB E → ℕ → ℕ → ℕ → DB E × ℕ × ℕ × ℕ
  | [], db, gen, skip, calls => (db, gen, skip, calls)
  | row :: rest, db, gen, skip, calls =>
    match row.embedding with
    | some _ => embedLoop embedder rest db gen (skip + 1) calls
    | none =>
      embedLoop embedder rest
        (update_chunk_embedding row.id (embedder row.chunk_text) db)
        (gen + 1) skip (calls + 1)

/-- The summary the endpoint reports (the wall-clock duration fields are
omitted; `external_calls` is the model's count of embedder invocations). -/
structure EmbSummary where
  total_chunks : ℕ
  generated : ℕ
  skipped : ℕ
  external_calls : ℕ
deriving DecidableEq

/-- `generate_embeddings_for_document(document_id)` (`main.py` lines
264-337): 404 when the document does not exist, 404 when it has no chunks,
otherwise run the embedding loop over its chunks.  The store is returned
alongside the outcome (unchanged on the error paths). -/
def generate_embeddings_for_document {E : Type} (embedder : List Char → E)
    (document_id : ℤ) (db : DB E) : Except HErr EmbSummary × DB E :=
  match get_document_by_id document_id db with
  | none => (.error .docNotFound, db)
  | some _ =>
    match get_chunks_by_document document_id db with
    | [] => (.error .noChunksFound, db)
    | chunk0 :: rest =>
      match embedLoop embedder (chunk0 :: rest) db 0 0 0 with
      | (db2, gen, skip, calls) =>
        (.ok ⟨(chunk0 :: rest).length, gen, skip, calls⟩, db2)

/-- **C10.** For a document that exists but has zero stored chunks, the
embedding pass signals the 404 "no chunks found" error and leaves the store
untouched, instead of reporting an all-zero summary. -/
theorem generate_embeddings_no_chunks_404 {E : Type} (embedder : List Char → E)
    (document_id : ℤ) (db : DB E) (doc : Document)
    (hdoc : get_document_by_id document_id db = some doc)
    (hempty : get_chunks_by_document document_id db = []) :
    generate_embeddings_for_document embedder document_id db
        = (.error .noChunksFound, db)
      ∧ HErr.status .noChunksFound = 404 := by
  constructor
  · rw [generate_embeddings_for_document, hdoc, hempty]
  · rfl

/-- Witness for C10: a store holding one document (id 1) and no chunks. -/
theorem generate_embeddings_no_chunks_404_witness :
    generate_embeddings_for_document (fun _ => (0 : ℕ)) 1
        ⟨[⟨1, "a.txt".toList, "uploads/a.txt".toList⟩], [], 1⟩
        = (.error .noChunksFound,
            ⟨[⟨1, "a.txt".toList, "uploads/a.txt".toList⟩], [], 1⟩)
      ∧ HErr.status .noChunksFound = 404 :=
  generate_embeddings_no_chunks_404 (fun _ => (0 : ℕ)) 1
    ⟨[⟨1, "a.txt".toList, "uploads/a.txt".toList⟩], [], 1⟩
    ⟨1, "a.txt".toList, "uploads/a.txt".toList⟩ (by decide) (by decide)

/-! ## C6: idempotence of the embedding pass -/

theorem embedLoop_meta {E : Type} (embedder : List Char → E) :
    ∀ (rows : List (ChunkRec E)) (db : DB E) (g s c : ℕ),
      (embedLoop embedder rows db g s c).1.documents = db.documents ∧
        (embedLoop embedder rows db g s c).1.nextChunkId = db.nextChunkId := by
  intro rows
  induction rows with
  | nil => intro db g s c; exact ⟨rfl, rfl⟩
  | cons row rest ih =>
    intro db g s c
    cases hre : row.embedding with
    | some e0 =>
      rw [embedLoop, hre]
      exact ih db g (s + 1) c
    | none =>
      rw [embedLoop, hre]
      exact ih (update_chunk_embedding row.id (embedder row.chunk_text) db)
        (g + 1) s (c + 1)

theorem embedLoop_chunks_map {E : Type} (embedder : List Char → E) :
    ∀ (rows : List (ChunkRec E)) (db : DB E) (g s c : ℕ),
      ∃ F : ChunkRec E → ChunkRec E,
        (embedLoop embedder rows db g s c).1.chunks = db.chunks.map F ∧
          ∀ x : ChunkRec E, (F x).id = x.id ∧ (F x).document_id = x.document_id ∧
            (F x).chunk_index = x.chunk_index ∧ (F x).chunk_text = x.chunk_text := by
  intro rows
  induction rows with
  | nil =>
    intro db g s c
    exact ⟨id, by simp [embedLoop], fun x => ⟨rfl, rfl, rfl, rfl⟩⟩
  | cons row rest ih =>
    intro db g s c
    cases hre : row.embedding with
    | some e0 =>
      rw [embedLoop, hre]
      exact ih db g (s + 1) c
    | none =>
      rw [embedLoop, hre]
      obtain ⟨F, hF, hFp⟩ :=
        ih (update_chunk_embedding row.id (embedder row.chunk_text) db) (g + 1) s (c + 1)
      refine ⟨fun x => F (if x.id == row.id then
          ⟨x.id, x.document_id, x.chunk_text, x.chunk_index,
            some (embedder row.chunk_text)⟩ else x), ?_, ?_⟩
      · show (embedLoop embedder rest
            (update_chunk_embedding row.id (embedder row.chunk_text) db)
            (g + 1) s (c + 1)).1.chunks = _
        rw [hF]
        simp only [update_chunk_embedding, List.map_map]
        rfl
      · intro x
        rcases hFp (if x.id == row.id then
            ⟨x.id, x.document_id, x.chunk_text, x.chunk_index,
              some (embedder row.chunk_text)⟩ else x) with ⟨h1, h2, h3, h4⟩
        refine ⟨h1.trans ?_, h2.trans ?_, h3.trans ?_, h4.trans ?_⟩ <;>
          by_cases hx : (x.id == row.id) = true <;> simp [hx]

theorem embedLoop_all_embedded {E : Type} (embedder : List Char → E) (d : ℤ) :
    ∀ (rows : List (ChunkRec E)) (db : DB E) (g s c : ℕ),
      (∀ ch ∈ db.chunks, ch.document_id = d →
        ch.embedding ≠ none ∨ ∃ r ∈ rows, r.id = ch.id ∧ r.embedding = none) →
      ∀ ch ∈ (embedLoop embedder rows db g s c).1.chunks,
        ch.document_id = d → ch.embedding ≠ none := by
  intro rows
  induction rows with
  | nil =>
    intro db g s c H ch hch hd
    rcases H ch hch hd with h | ⟨r, hr, _⟩
    · exact h
    · exact absurd hr (List.not_mem_nil r)
  | cons row rest ih =>
    intro db g s c H
    cases hre : row.embedding with
    | some e0 =>
      rw [embedLoop, hre]
      apply ih db g (s + 1) c
      intro ch hch hd
      rcases H ch hch hd with h | ⟨r, hr, hid, hnone⟩
      · exact Or.inl h
      · rcases List.mem_cons.mp hr with rfl | hr'
        · rw [hre] at hnone; exact absurd hnone (by simp)
        · exact Or.inr ⟨r, hr', hid, hnone⟩
    | none =>
      rw [embedLoop, hre]
      apply ih (update_chunk_embedding row.id (embedder row.chunk_text) db)
        (g + 1) s (c + 1)
      intro ch hch hd
      simp only [update_chunk_embedding] at hch
      rcases List.mem_map.mp hch with ⟨c0, hc0, heq⟩
      subst heq
      by_cases hcid : (c0.id == row.id) = true
      · simp only [if_pos hcid]
        exact Or.inl (by simp)
      · simp only [if_neg hcid] at hd ⊢
        rcases H c0 hc0 hd with h | ⟨r, hr, hid, hnone⟩
        · exact Or.inl h
        · rcases List.mem_cons.mp hr with rfl | hr'
          · exact absurd (by simp [hid]) hcid
          · exact Or.inr ⟨r, hr', hid, hnone⟩

theorem embedLoop_all_skipped {E : Type} (embedder : List Char → E) :
    ∀ (rows : List (ChunkRec E)) (db : DB E) (g s c : ℕ),
      (∀ r ∈ rows, r.embedding ≠ none) →
      embedLoop embedder rows db g s c = (db, g, s + rows.length, c) := by
  intro rows
  induction rows with
  | nil => intro db g s c _; simp [embedLoop]
  | cons row rest ih =>
    intro db g s c hall
    cases hre : row.embedding with
    | none => exact absurd hre (hall row (by simp))
    | some e0 =>
      rw [embedLoop, hre]
      rw [ih db g (s + 1) c (fun r hr => hall r (by simp [hr]))]
      have harith : s + 1 + rest.length = s + (row :: rest).length := by
        simp only [List.length_cons]; omega
      rw [harith]

theorem filter_doc_length_map {E : Type} (d : ℤ) (l : List (ChunkRec E))
    (F : ChunkRec E → ChunkRec E)
    (hF : ∀ x, (F x).document_id = x.document_id) :
    ((l.map F).filter (fun c => c.document_id == d)).length
      = (l.filter (fun c => c.document_id == d)).length := by
  rw [List.filter_map, List.length_map]
  congr 1
  apply List.filter_congr
  intro x _
  simp [Function.comp, hF x]

/-- **C6.** The embedding pass is idempotent: if a first run over a
document's (non-empty) chunk set succeeds, a second run over the unchanged
store reports `generated = 0`, counts every chunk as skipped, performs zero
external embedder calls, and returns the store bit-for-bit unchanged. -/
theorem generate_embeddings_idempotent {E : Type} (embedder : List Char → E)
    (document_id : ℤ) (db db1 : DB E) (sum1 : EmbSummary)
    (h : generate_embeddings_for_document embedder document_id db
      = (.ok sum1, db1)) :
    generate_embeddings_for_document embedder document_id db1
      = (.ok ⟨sum1.total_chunks, 0, sum1.total_chunks, 0⟩, db1) := by
  rcases hdoc : get_document_by_id document_id db with _ | doc
  · rw [generate_embeddings_for_document, hdoc] at h
    exact absurd h (by simp)
  rcases hrows : get_chunks_by_document document_id db with _ | ⟨c0, rest⟩
  · simp only [generate_embeddings_for_document, hdoc, hrows] at h
    exact absurd h (by simp)
  · simp only [generate_embeddings_for_document, hdoc, hrows] at h
    rcases hloop : embedLoop embedder (c0 :: rest) db 0 0 0 with
      ⟨db1', gen, skip, calls⟩
    rw [hloop] at h
    simp only [Prod.mk.injEq, Except.ok.injEq] at h
    obtain ⟨hsum, hdb1⟩ := h
    subst hdb1
    have hmeta := embedLoop_meta embedder (c0 :: rest) db 0 0 0
    rw [hloop] at hmeta
    obtain ⟨F, hF, hFp⟩ := embedLoop_chunks_map embedder (c0 :: rest) db 0 0 0
    rw [hloop] at hF
    have hdoc1 : get_document_by_id document_id db1' = some doc := by
      show db1'.documents.find? (fun d => d.id == document_id) = some doc
      rw [hmeta.1]
      exact hdoc
    have hemb : ∀ ch ∈ db1'.chunks, ch.document_id = document_id →
        ch.embedding ≠ none := by
      have key := embedLoop_all_embedded embedder document_id (c0 :: rest) db 0 0 0 ?_
      · rw [hloop] at key; exact key
      · intro ch hch hd
        cases hce : ch.embedding with
        | some e0 => exact Or.inl (by simp)
        | none =>
          refine Or.inr ⟨ch, ?_, rfl, hce⟩
          rw [← hrows, get_chunks_by_document]
          exact (List.mem_insertionSort byChunkIndex).mpr
            (List.mem_filter.mpr ⟨hch, by simp [hd]⟩)
    have hlen2 : (get_chunks_by_document document_id db1').length
        = (c0 :: rest).length := by
      rw [get_chunks_by_document, List.length_insertionSort, hF,
        filter_doc_length_map document_id db.chunks F (fun x => (hFp x).2.1)]
      have hlen1 := congrArg List.length hrows
      rw [get_chunks_by_document, List.length_insertionSort] at hlen1
      exact hlen1
    have hall2 : ∀ r ∈ get_chunks_by_document document_id db1',
        r.embedding ≠ none := by
      intro r hr
      rw [get_chunks_by_document] at hr
      have hrf := List.mem_filter.mp ((List.mem_insertionSort byChunkIndex).mp hr)
      exact hemb r hrf.1 (by simpa using hrf.2)
    rcases hrows2 : get_chunks_by_document document_id db1' with _ | ⟨d0, drest⟩
    · rw [hrows2] at hlen2; simp at hlen2
    · simp only [generate_embeddings_for_document, hdoc1, hrows2]
      rw [embedLoop_all_skipped embedder (d0 :: drest) db1' 0 0 0
        (fun r hr => hall2 r (by rw [hrows2]; exact hr))]
      have hlen3 : (d0 :: drest).length = sum1.total_chunks := by
        rw [hrows2] at hlen2
        rw [hlen2, ← hsum]
      rw [hlen3, Nat.zero_add]

/-- Witness for C6: one document owning a single unembedded chunk.  The
first pass embeds it (one generated, one external call); the second pass
over the resulting store generates nothing, skips the chunk, calls the
embedder zero times and leaves the store unchanged. -/
theorem generate_embeddings_idempotent_witness :
    generate_embeddings_for_document (fun _ => (7 : ℕ)) 1
        ⟨[⟨1, "a.txt".toList, "uploads/a.txt".toList⟩],
          [⟨1, 1, "hi".toList, 0, some 7⟩], 2⟩
      = (.ok ⟨1, 0, 1, 0⟩,
          ⟨[⟨1, "a.txt".toList, "uploads/a.txt".toList⟩],
            [⟨1, 1, "hi".toList, 0, some 7⟩], 2⟩) :=
  generate_embeddings_idempotent (fun _ => (7 : ℕ)) 1
    ⟨[⟨1, "a.txt".toList, "uploads/a.txt".toList⟩],
      [⟨1, 1, "hi".toList, 0, none⟩], 2⟩
    ⟨[⟨1, "a.txt".toList, "uploads/a.txt".toList⟩],
      [⟨1, 1, "hi".toList, 0, some 7⟩], 2⟩
    ⟨1, 1, 0, 1⟩ (by rfl)

/-! ## `index_document` (`main.py` lines 148-220)

`chunks_list` stands for the output of `chunk_document(file_path, 500, 50)`
on the document's file (file reading and the chunking loop itself are
modelled separately, see `chunk_text`); the on-disk existence check is file
system I/O outside this core.  A failure of `database.insert_chunk` at loop
index `i` (an exception from SQLite) is modelled by the oracle `fails i`;
a failing insert writes no row. -/

/-- The `for index, chunk_text in enumerate(chunks_list):` insert loop
(`main.py` lines 199-205): returns `false` together with the partially
updated store as soon as an insert fails, `true` with the fully updated
store otherwise. -/
def insertLoop {E : Type} (document_id : ℤ) (fails : ℕ → Bool) :
    List (List Char) → ℕ → DB E → Bool × DB E
  | [], _, db => (true, db)
  | c :: rest, i, db =>
    if fails i then (false, db)
    else insertLoop document_id fails rest (i + 1)
      (insert_chunk document_id c (i : ℤ) db)

/-- The success payload of `index_document`. -/
structure IndexSummary where
  document_id : ℤ
  chunks_created : ℕ
deriving DecidableEq

/-- `index_document(document_id)` (`main.py` lines 148-220): 404 when the
document is unknown; delete any existing chunks (only when there are some);
insert the new chunks in order; on an insert failure delete every chunk of
the document and surface a 500; otherwise report the new chunk count. -/
def index_document {E : Type} (document_id : ℤ) (chunks_list : List (List Char))
    (fails : ℕ → Bool) (db : DB E) : Except HErr IndexSummary × DB E :=
  match get_document_by_id document_id db with
  | none => (.error .docNotFound, db)
  | some _ =>
    match insertLoop document_id fails chunks_list 0
        (if 0 < count_chunks_for_document document_id db
         then delete_existing_chunks document_id db else db) with
    | (false, dbp) => (.error .insertFailed, delete_existing_chunks document_id dbp)
    | (true, db2) => (.ok ⟨document_id, chunks_list.length⟩, db2)

theorem count_after_delete {E : Type} (document_id : ℤ) (db : DB E) :
    count_chunks_for_document document_id
      (delete_existing_chunks document_id db) = 0 := by
  simp only [count_chunks_for_document, delete_existing_chunks,
    List.filter_filter]
  rw [List.length_eq_zero, List.filter_eq_nil_iff]
  intro c _
  simp [bne]

theorem insertLoop_fst_false {E : Type} (document_id : ℤ) (fails : ℕ → Bool) :
    ∀ (l : List (List Char)) (i0 : ℕ) (db : DB E),
      (∃ j, j < l.length ∧ fails (i0 + j) = true) →
      (insertLoop document_id fails l i0 db).1 = false := by
  intro l
  induction l with
  | nil =>
    intro i0 db ⟨j, hj, _⟩
    exact absurd hj (by simp)
  | cons c rest ih =>
    intro i0 db ⟨j, hj, hf⟩
    rw [insertLoop]
    by_cases h0 : fails i0 = true
    · rw [if_pos h0]
    · rw [if_neg h0]
      apply ih
      cases j with
      | zero => rw [Nat.add_zero] at hf; exact absurd hf h0
      | succ j' =>
        refine ⟨j', by simpa using hj, ?_⟩
        have harg : i0 + 1 + j' = i0 + (j' + 1) := by omega
        rw [harg]
        exact hf

/-- **C7.** If any insert of the re-indexing loop fails, `index_document`
deletes every chunk of the document — the freshly inserted ones included —
leaving it with zero stored chunks, and surfaces the 500 error. -/
theorem index_document_failure_rollback {E : Type} (document_id : ℤ)
    (chunks_list : List (List Char)) (fails : ℕ → Bool) (db : DB E)
    (doc : Document)
    (hdoc : get_document_by_id document_id db = some doc)
    (hfail : ∃ j, j < chunks_list.length ∧ fails j = true) :
    ∃ dbE : DB E,
      index_document document_id chunks_list fails db
          = (.error .insertFailed, dbE)
        ∧ count_chunks_for_document document_id dbE = 0
        ∧ HErr.status .insertFailed = 500 := by
  have hfalse := insertLoop_fst_false document_id fails chunks_list 0
    (if 0 < count_chunks_for_document document_id db
     then delete_existing_chunks document_id db else db)
    (by obtain ⟨j, hj, hf⟩ := hfail; exact ⟨j, hj, by simpa using hf⟩)
  rcases hloop : insertLoop document_id fails chunks_list 0
      (if 0 < count_chunks_for_document document_id db
       then delete_existing_chunks document_id db else db) with ⟨b, dbp⟩
  rw [hloop] at hfalse
  simp only at hfalse
  subst hfalse
  refine ⟨delete_existing_chunks document_id dbp, ?_, ?_, rfl⟩
  · rw [index_document, hdoc, hloop]
  · exact count_after_delete document_id dbp

/-- Witness for C7: one document (id 1) with one stale chunk; the insert of
chunk index 1 fails, and the store ends with zero chunks for the document. -/
theorem index_document_failure_rollback_witness :
    ∃ dbE : DB ℕ,
      index_document 1 ["aa".toList, "bb".toList] (fun i => i == 1)
          ⟨[⟨1, "a.txt".toList, "uploads/a.txt".toList⟩],
            [⟨1, 1, "old".toList, 0, some 5⟩], 2⟩
          = (.error .insertFailed, dbE)
        ∧ count_chunks_for_document 1 dbE = 0
        ∧ HErr.status .insertFailed = 500 :=
  index_document_failure_rollback 1 ["aa".toList, "bb".toList] (fun i => i == 1)
    ⟨[⟨1, "a.txt".toList, "uploads/a.txt".toList⟩],
      [⟨1, 1, "old".toList, 0, some 5⟩], 2⟩
    ⟨1, "a.txt".toList, "uploads/a.txt".toList⟩
    (by decide) ⟨1, by decide, by decide⟩

/-! ## C8: cleanliness of a successful re-index -/

/-- The rows the insert loop appends: one per chunk, consecutive indices
from `i`, consecutive fresh ids from `nid`, no embeddings. -/
def newRows {E : Type} (document_id : ℤ) :
    List (List Char) → ℕ → ℤ → List (ChunkRec E)
  | [], _, _ => []
  | c :: rest, i, nid =>
    ⟨nid, document_id, c, (i : ℤ), none⟩ ::
      newRows document_id rest (i + 1) (nid + 1)

theorem newRows_bounds {E : Type} (document_id : ℤ) :
    ∀ (l : List (List Char)) (i : ℕ) (nid : ℤ),
      ∀ r ∈ (newRows document_id l i nid : List (ChunkRec E)),
        r.document_id = document_id ∧ nid ≤ r.id := by
  intro l
  induction l with
  | nil => intro i nid r hr; exact absurd hr (List.not_mem_nil r)
  | cons c rest ih =>
    intro i nid r hr
    rcases List.mem_cons.mp hr with rfl | hr'
    · exact ⟨rfl, le_refl _⟩
    · rcases ih (i + 1) (nid + 1) r hr' with ⟨h1, h2⟩
      exact ⟨h1, by omega⟩

theorem newRows_filter_self {E : Type} (document_id : ℤ)
    (l : List (List Char)) (i : ℕ) (nid : ℤ) :
    (newRows document_id l i nid : List (ChunkRec E)).filter
        (fun c => c.document_id == document_id)
      = newRows document_id l i nid := by
  rw [List.filter_eq_self]
  intro r hr
  simp [(newRows_bounds document_id l i nid r hr).1]

theorem newRows_map_pair {E : Type} (document_id : ℤ) :
    ∀ (l : List (List Char)) (i : ℕ) (nid : ℤ),
      (newRows document_id l i nid : List (ChunkRec E)).map
          (fun c => (c.chunk_index, c.chunk_text))
        = (List.enumFrom i l).map (fun p => ((p.1 : ℤ), p.2)) := by
  intro l
  induction l with
  | nil => intro i nid; rfl
  | cons c rest ih =>
    intro i nid
    simp only [newRows, List.enumFrom, List.map_cons]
    rw [ih (i + 1) (nid + 1)]

theorem insertLoop_ok {E : Type} (document_id : ℤ) (fails : ℕ → Bool)
    (hok : ∀ i, fails i = false) :
    ∀ (l : List (List Char)) (i0 : ℕ) (db : DB E),
      insertLoop document_id fails l i0 db =
        (true, ⟨db.documents,
          db.chunks ++ newRows document_id l i0 db.nextChunkId,
          db.nextChunkId + l.length⟩) := by
  intro l
  induction l with
  | nil =>
    intro i0 db
    simp [insertLoop, newRows]
  | cons c rest ih =>
    intro i0 db
    rw [insertLoop, if_neg (by simp [hok i0]), ih]
    simp only [insert_chunk, newRows, Prod.mk.injEq, DB.mk.injEq,
      List.append_assoc, List.singleton_append, List.length_cons, true_and]
    push_cast
    ring

/-- **C8.** After a successful re-index with `N` new chunks, the document's
stored chunks are, in index order, exactly the new chunks with indices
`0..N-1` (no gaps, no duplicates), and no chunk row of the previous
generation survives (fresh auto-increment ids exceed every pre-existing id,
which the `hinv` store invariant records). -/
theorem index_document_reindex_clean {E : Type} (document_id : ℤ)
    (chunks_list : List (List Char)) (fails : ℕ → Bool) (db : DB E)
    (doc : Document)
    (hdoc : get_document_by_id document_id db = some doc)
    (hok : ∀ i, fails i = false)
    (hinv : ∀ c ∈ db.chunks, c.id < db.nextChunkId) :
    ∃ db2 : DB E,
      index_document document_id chunks_list fails db
          = (.ok ⟨document_id, chunks_list.length⟩, db2)
        ∧ (db2.chunks.filter (fun c => c.document_id == document_id)).map
              (fun c => (c.chunk_index, c.chunk_text))
            = chunks_list.enum.map (fun p => ((p.1 : ℤ), p.2))
        ∧ (∀ c ∈ db2.chunks, c.document_id = document_id → c ∉ db.chunks) := by
  set db1 := if 0 < count_chunks_for_document document_id db
    then delete_existing_chunks document_id db else db with hdb1
  have hfil : db1.chunks.filter (fun c => c.document_id == document_id) = [] := by
    rw [hdb1]
    by_cases hc : 0 < count_chunks_for_document document_id db
    · rw [if_pos hc]
      simp only [delete_existing_chunks, List.filter_filter]
      rw [List.filter_eq_nil_iff]
      intro c _
      simp [bne]
    · rw [if_neg hc]
      simp only [count_chunks_for_document, Nat.not_lt, Nat.le_zero] at hc
      exact List.length_eq_zero.mp hc
  have hnext : db1.nextChunkId = db.nextChunkId := by
    rw [hdb1]
    by_cases hc : 0 < count_chunks_for_document document_id db
    · rw [if_pos hc]; rfl
    · rw [if_neg hc]
  have hloop := insertLoop_ok document_id fails hok chunks_list 0 db1
  refine ⟨⟨db1.documents,
      db1.chunks ++ newRows document_id chunks_list 0 db1.nextChunkId,
      db1.nextChunkId + chunks_list.length⟩, ?_, ?_, ?_⟩
  · rw [index_document, hdoc, ← hdb1, hloop]
  · simp only [List.filter_append, hfil, List.nil_append]
    rw [newRows_filter_self, newRows_map_pair]
    rfl
  · intro c hc hcd hmem
    rcases List.mem_append.mp hc with hin | hin
    · have hcin : c ∈ db1.chunks.filter (fun c => c.document_id == document_id) :=
        List.mem_filter.mpr ⟨hin, by simp [hcd]⟩
      rw [hfil] at hcin
      exact absurd hcin (List.not_mem_nil c)
    · have hid := (newRows_bounds document_id chunks_list 0 _ c hin).2
      rw [hnext] at hid
      exact absurd (hinv c hmem) (by omega)

/-- Witness for C8: a store with one document (id 1) and one stale chunk of
a previous generation (id 0); re-indexing with two new chunks succeeds and
leaves exactly the two new rows with indices 0 and 1. -/
theorem index_document_reindex_clean_witness :
    ∃ db2 : DB ℕ,
      index_document 1 ["aa".toList, "bb".toList] (fun _ => false)
          ⟨[⟨1, "a.txt".toList, "uploads/a.txt".toList⟩],
            [⟨0, 1, "old".toList, 0, some 5⟩], 1⟩
          = (.ok ⟨1, ["aa".toList, "bb".toList].length⟩, db2)
        ∧ (db2.chunks.filter (fun c => c.document_id == 1)).map
              (fun c => (c.chunk_index, c.chunk_text))
            = (["aa".toList, "bb".toList].enum.map (fun p => ((p.1 : ℤ), p.2)))
        ∧ (∀ c ∈ db2.chunks, c.document_id = 1 →
            c ∉ [(⟨0, 1, "old".toList, 0, some 5⟩ : ChunkRec ℕ)]) := by
  have h := index_document_reindex_clean 1 ["aa".toList, "bb".toList]
    (fun _ => false)
    ⟨[⟨1, "a.txt".toList, "uploads/a.txt".toList⟩],
      [⟨0, 1, "old".toList, 0, some 5⟩], 1⟩
    ⟨1, "a.txt".toList, "uploads/a.txt".toList⟩
    (by decide) (fun i => rfl) (by decide)
  exact h

/-! ## `semantic_search` (`main.py` lines 339-409)

The external call producing the query's embedding is modelled by passing
its result `query_embedding`; the empty-query validation concerns the raw
query string, which never reaches the ranking logic modelled here. -/

/-- Python `round(x, 4)` idealised on `ℝ` (see the module comment on
midpoint rounding). -/
noncomputable def roundTo4 (x : ℝ) : ℝ := ((round (x * 10000) : ℤ) : ℝ) / 10000

/-- One entry of the `results` list built by `semantic_search`. -/
structure SearchResult where
  chunk_id : ℤ
  chunk_text : List Char
  chunk_index : ℤ
  document_id : ℤ
  filename : List Char
  similarity : ℝ

/-- The result entry built for one fetched chunk row (`main.py` lines
380-390): the reported similarity is the rounded one, which is also the
sort key. -/
noncomputable def mkSearchResult (query_embedding : List ℝ)
    (c : ChunkRow (List ℝ)) : SearchResult :=
  ⟨c.id, c.chunk_text, c.chunk_index, c.document_id, c.filename,
    roundTo4 (compute_similarity query_embedding c.embedding)⟩

/-- The ordering of `results.sort(key=lambda x: x["similarity"],
reverse=True)`: descending by similarity.  Python's sort is stable, and
`List.insertionSort` with this non-strict relation is stable in the same
sense (`filter_insertionSort_eq` below). -/
def simGE (a b : SearchResult) : Prop := b.similarity ≤ a.similarity

noncomputable instance (a b : SearchResult) : Decidable (simGE a b) :=
  Real.decidableLE _ _

instance : IsTotal SearchResult simGE :=
  ⟨fun a b => le_total b.similarity a.similarity⟩

instance : IsTrans SearchResult simGE :=
  ⟨fun _ _ _ hab hbc => le_trans hbc hab⟩

/-- The response of `semantic_search`: the ranked results, the number of
embedded chunks scanned, `results_returned` (absent on the nothing-indexed
path), and whether the "no chunks with embeddings" message was reported. -/
structure SearchResponse where
  results : List SearchResult
  total_chunks_searched : ℕ
  results_returned : Option ℕ
  nothing_indexed : Bool

/-- `semantic_search(q, k)` (`main.py` lines 339-409): reject `k` outside
`1..20` with a 400; report the explicit empty state when no chunk carries
an embedding; otherwise score every embedded chunk, sort descending by the
(rounded) similarity with a stable sort, and return the first `k`. -/
noncomputable def semantic_search (query_embedding : List ℝ)
    (db : DB (List ℝ)) (k : ℤ) : Except HErr SearchResponse :=
  if k < 1 ∨ 20 < k then .error .badK
  else
    match get_all_chunks_with_embeddings db none with
    | [] => .ok ⟨[], 0, none, true⟩
    | c0 :: rest =>
      let results := (c0 :: rest).map (mkSearchResult query_embedding)
      let sorted := List.insertionSort simGE results
      let top := sorted.take k.toNat
      .ok ⟨top, (c0 :: rest).length, some top.length, false⟩

/-! Stability of the modelled sort: inserting an element that does not
satisfy `p` leaves the `p`-filtered list unchanged, inserting one that does
puts it exactly at the front of the `p`-filtered tail, so the whole sort
preserves the relative order of any class of equal keys. -/

theorem filter_orderedInsert_of_neg {α : Type} (r : α → α → Prop)
    [DecidableRel r] (p : α → Bool) (a : α) (ha : p a = false) :
    ∀ M : List α, (List.orderedInsert r a M).filter p = M.filter p := by
  intro M
  induction M with
  | nil => simp [List.orderedInsert, ha]
  | cons b l ih =>
    rw [List.orderedInsert]
    by_cases hr : r a b
    · rw [if_pos hr, List.filter_cons, ha]
      simp
    · rw [if_neg hr, List.filter_cons]
      conv_rhs => rw [List.filter_cons]
      by_cases hb : p b = true
      · simp only [hb, if_true, ih]
      · simp only [hb, if_false, ih]

theorem filter_orderedInsert_of_pos {α : Type} (r : α → α → Prop)
    [DecidableRel r] (p : α → Bool) (a : α) (ha : p a = true)
    (hmono : ∀ b, ¬ r a b → p b = false) :
    ∀ M : List α, (List.orderedInsert r a M).filter p = a :: M.filter p := by
  intro M
  induction M with
  | nil => simp [List.orderedInsert, ha]
  | cons b l ih =>
    rw [List.orderedInsert]
    by_cases hr : r a b
    · rw [if_pos hr, List.filter_cons, ha]
      simp
    · rw [if_neg hr, List.filter_cons]
      have hb : p b = false := hmono b hr
      conv_rhs => rw [List.filter_cons]
      simp only [hb, Bool.false_eq_true, if_false, ih]

theorem filter_insertionSort_eq {α : Type} (r : α → α → Prop)
    [DecidableRel r] (p : α → Bool)
    (hp : ∀ a, p a = true → ∀ b, ¬ r a b → p b = false) :
    ∀ l : List α, (List.insertionSort r l).filter p = l.filter p := by
  intro l
  induction l with
  | nil => rfl
  | cons a l ih =>
    rw [List.insertionSort]
    by_cases ha : p a = true
    · rw [filter_orderedInsert_of_pos r p a ha (hp a ha) _, ih, List.filter_cons,
        if_pos ha]
    · have ha' : p a = false := by revert ha; cases p a <;> simp
      rw [filter_orderedInsert_of_neg r p a ha' _, ih, List.filter_cons]
      simp only [ha', Bool.false_eq_true, if_false]

theorem filter_take_prefix_of_filter {α : Type} (p : α → Bool) (l : List α) (n : ℕ) :
    (l.take n).filter p <+: l.filter p := by
  conv_rhs => rw [← List.take_append_drop n l]
  rw [List.filter_append]
  exact ⟨(l.drop n).filter p, rfl⟩

/-- **C4.** For `1 ≤ k ≤ 20`, `semantic_search` succeeds and returns
exactly `min(k, number of embedded candidates)` results, sorted descending
by the reported similarity score, and — stability — for every score value,
the results carrying that score form a prefix of the candidates carrying
that score taken in their original candidate order. -/
theorem semantic_search_topk (query_embedding : List ℝ) (db : DB (List ℝ))
    (k : ℤ) (hk1 : 1 ≤ k) (hk2 : k ≤ 20) :
    ∃ resp : SearchResponse,
      semantic_search query_embedding db k = .ok resp
        ∧ resp.results.length
            = min k.toNat (get_all_chunks_with_embeddings db none).length
        ∧ List.Sorted simGE resp.results
        ∧ ∀ s : ℝ,
            resp.results.filter (fun x => decide (x.similarity = s))
              <+: ((get_all_chunks_with_embeddings db none).map
                    (mkSearchResult query_embedding)).filter
                  (fun x => decide (x.similarity = s)) := by
  rcases hall : get_all_chunks_with_embeddings db none with _ | ⟨c0, rest⟩
  · rw [semantic_search, if_neg (by omega), hall]
    exact ⟨⟨[], 0, none, true⟩, rfl, by simp, List.sorted_nil,
      fun s => by simp⟩
  · rw [semantic_search, if_neg (by omega), hall]
    refine ⟨⟨(List.insertionSort simGE
        ((c0 :: rest).map (mkSearchResult query_embedding))).take k.toNat,
      (c0 :: rest).length,
      some ((List.insertionSort simGE
        ((c0 :: rest).map (mkSearchResult query_embedding))).take k.toNat).length,
      false⟩, rfl, ?_, ?_, ?_⟩
    · rw [List.length_take, List.length_insertionSort, List.length_map]
    · exact List.Pairwise.sublist (List.take_sublist _ _)
        (List.sorted_insertionSort simGE _)
    · intro s
      have hstab := filter_insertionSort_eq simGE
        (fun x => decide (x.similarity = s)) ?_
        ((c0 :: rest).map (mkSearchResult query_embedding))
      · rw [← hstab]
        exact filter_take_prefix_of_filter _ _ _
      · intro a ha b hr
        apply decide_eq_false
        intro hb
        apply hr
        have ha' := of_decide_eq_true ha
        exact le_of_eq (by rw [hb, ha'])

/-- The store of the C4 witness: one document owning three embedded chunks
with 2-dimensional embeddings `[1,0]`, `[0,1]`, `[1,1]` (the spec's worked
example). -/
noncomputable def dbRankExample : DB (List ℝ) :=
  ⟨[⟨1, "a.txt".toList, "uploads/a.txt".toList⟩],
    [⟨1, 1, "x".toList, 0, some [1, 0]⟩,
      ⟨2, 1, "y".toList, 1, some [0, 1]⟩,
      ⟨3, 1, "z".toList, 2, some [1, 1]⟩], 4⟩

/-- Witness for C4 at `k = 2` over `dbRankExample` with query `[1, 0]`. -/
theorem semantic_search_topk_witness :
    ∃ resp : SearchResponse,
      semantic_search [1, 0] dbRankExample 2 = .ok resp
        ∧ resp.results.length
            = min (2 : ℤ).toNat
              (get_all_chunks_with_embeddings dbRankExample none).length
        ∧ List.Sorted simGE resp.results
        ∧ ∀ s : ℝ,
            resp.results.filter (fun x => decide (x.similarity = s))
              <+: ((get_all_chunks_with_embeddings dbRankExample none).map
                    (mkSearchResult [1, 0])).filter
                  (fun x => decide (x.similarity = s)) :=
  semantic_search_topk [1, 0] dbRankExample 2 (by decide) (by decide)
